import Mathlib

/-!
Shallow embedding of the fda-search backend core, translated from
`src/backend/services/document_service.py` (`_chunk_text`),
`src/backend/services/chat_protocol.py` (`count_message_tokens`,
`truncate_messages_to_fit`, `stream_text`) and the retrieval-ranking block of
`src/backend/main.py` (`handle_chat_data`).

The tiktoken tokenizer is an external dependency; every definition that needs
it is parameterised by an encoding function `enc : String → List τ` and a
decoding function `dec : List τ → String`.  Concrete instantiations in the
theorems below use `String.data` / `String.mk` (one token per character).
-/

set_option maxRecDepth 40000

namespace FdaSearch

/-! ### Chunker — `DocumentService._chunk_text` -/

/-- One chunk as built by `_chunk_text`:
`{"text": chunk_text, "start_index": i, "token_count": len(chunk_tokens)}`. -/
structure Chunk where
  text : String
  start_index : Nat
  token_count : Nat
deriving DecidableEq, Repr

/-- Model of Python `range(0, n, step)` for an integer `step`.
For `step > 0` it is the multiples of `step` below `n`; for `step < 0`
(as produced by `chunk_size - overlap < 0`) it is empty.  `step = 0` raises
`ValueError` in Python and is excluded by the caller. -/
def pyRange0 (n : Nat) (step : Int) : List Nat :=
  if 0 < step then (List.range ((n + step.toNat - 1) / step.toNat)).map (fun k => k * step.toNat)
  else []

/-- Model of Python `tokens[i : i + chunk_size]` (empty for a non-positive
slice width). -/
def pySlice {τ : Type} (tokens : List τ) (i : Nat) (width : Int) : List τ :=
  (tokens.drop i).take width.toNat

/-- Embedding of `DocumentService._chunk_text`.  The source iterates
`for i in range(0, len(tokens), chunk_size - overlap)`; a zero step makes
Python's `range` raise `ValueError`, modelled by returning `none`. -/
def chunk_text {τ : Type} (enc : String → List τ) (dec : List τ → String)
    (text : String) (chunk_size : Int) (overlap : Int) : Option (List Chunk) :=
  let tokens := enc text
  let step := chunk_size - overlap
  if step = 0 then none
  else
    some ((pyRange0 tokens.length step).map (fun i =>
      let ck := pySlice tokens i chunk_size
      { text := dec ck, start_index := i, token_count := ck.length }))

theorem pyRange0_len (n : Nat) (step : Int) (h : 0 < step) :
    (pyRange0 n step).length = (n + step.toNat - 1) / step.toNat := by
  simp [pyRange0, h]

theorem pyRange0_get (n : Nat) (step : Int) (h : 0 < step)
    (i : Nat) (hi : i < (pyRange0 n step).length) :
    (pyRange0 n step).get ⟨i, hi⟩ = i * step.toNat := by
  simp [pyRange0, h] at hi ⊢

theorem chunk_text_eq {τ : Type} (enc : String → List τ) (dec : List τ → String)
    (text : String) (cs ov : Int) (hne : cs - ov ≠ 0) :
    chunk_text enc dec text cs ov =
      some ((pyRange0 (enc text).length (cs - ov)).map (fun i =>
        { text := dec (pySlice (enc text) i cs), start_index := i,
          token_count := (pySlice (enc text) i cs).length })) := by
  simp [chunk_text, hne]

/-- A 1100-token document (one token per character under the
`String.data` tokenizer), used for end-to-end scenario A. -/
def doc1100 : String := String.mk (List.replicate 1100 'a')

/-- Claim C6 (counterexample): with `chunkSize = 3` and `overlap = 4` the
chunker returns the result `some []` instead of failing fast with an
`InvalidChunkConfig` error — no such validation exists in `_chunk_text`. -/
theorem claim_C6_counterexample :
    chunk_text String.data String.mk "ab" 3 4 = some [] := by decide

/-- Claim C6 (amended): `_chunk_text` performs no configuration validation.
For `overlap = chunkSize` the zero-step `range` raises a runtime `ValueError`
(modelled as `none`); for `overlap > chunkSize` the negative-step `range` is
empty, so an empty chunk list is silently returned. -/
theorem claim_C6_overlap_ge_chunk_size {τ : Type} (enc : String → List τ)
    (dec : List τ → String) (text : String) (cs ov : Int) (h : cs ≤ ov) :
    chunk_text enc dec text cs ov = if cs = ov then none else some [] := by
  by_cases heq : cs = ov
  · simp [chunk_text, heq]
  · have hne : cs - ov ≠ 0 := by omega
    have hlt : ¬ (0 < cs - ov) := by omega
    simp [chunk_text, hne, heq, pyRange0, hlt]

/-- Witness for claim C6's amended theorem at `chunkSize = 3`, `overlap = 4`. -/
theorem claim_C6_witness :
    chunk_text String.data String.mk "xy" 3 4 = if (3 : Int) = 4 then none else some [] :=
  claim_C6_overlap_ge_chunk_size String.data String.mk "xy" 3 4 (by decide)

/-- Claim C7 (counterexample): for the 2-token text `"ab"` with
`chunkSize = 3`, `overlap = 2` (a valid configuration, `0 < N ≤ chunkSize`),
the chunker produces 2 chunks, not exactly 1 as claimed. -/
theorem claim_C7_counterexample :
    (String.data "ab").length = 2 ∧ (0 : Int) ≤ 2 ∧ (2 : Int) < 3 ∧
    (chunk_text String.data String.mk "ab" 3 2).map List.length = some 2 := by decide

/-- Claim C7 (amended): for `0 ≤ overlap < chunkSize` the number of chunks is
`ceil(N / (chunkSize - overlap))` (which is 0 for `N = 0`), and every chunk's
`token_count` is at most `chunkSize`. -/
theorem claim_C7_chunk_count {τ : Type} (enc : String → List τ)
    (dec : List τ → String) (text : String) (cs ov : Int)
    (h0 : 0 ≤ ov) (h1 : ov < cs) :
    ∃ cks, chunk_text enc dec text cs ov = some cks ∧
      cks.length = ((enc text).length + (cs - ov).toNat - 1) / (cs - ov).toNat ∧
      ∀ c ∈ cks, c.token_count ≤ cs.toNat := by
  have hstep : (0 : Int) < cs - ov := by omega
  have hne : cs - ov ≠ 0 := by omega
  refine ⟨_, chunk_text_eq enc dec text cs ov hne, ?_, ?_⟩
  · rw [List.length_map, pyRange0_len _ _ hstep]
  · intro c hc
    simp only [List.mem_map] at hc
    obtain ⟨i, _, rfl⟩ := hc
    simp only [pySlice, List.length_take]
    exact min_le_left _ _

/-- Witness for claim C7's amended theorem on a 4-token text with
`chunkSize = 3`, `overlap = 1`. -/
theorem claim_C7_witness :
    ∃ cks, chunk_text String.data String.mk "abcd" 3 1 = some cks ∧
      cks.length = ((String.data "abcd").length + ((3 : Int) - 1).toNat - 1) / ((3 : Int) - 1).toNat ∧
      ∀ c ∈ cks, c.token_count ≤ (3 : Int).toNat :=
  claim_C7_chunk_count String.data String.mk "abcd" 3 1 (by decide) (by decide)

/-- Claim C8: the window slides forward by `chunkSize - overlap` tokens per
step from offset 0, so the i-th chunk's `start_index` is
`i * (chunkSize - overlap)`; in particular a 1100-token document with
`chunkSize = 512`, `overlap = 50` yields chunks starting at 0, 462, 924. -/
theorem claim_C8_chunk_start_index {τ : Type} (enc : String → List τ)
    (dec : List τ → String) (text : String) (cs ov : Int)
    (h0 : 0 ≤ ov) (h1 : ov < cs) :
    (∃ cks, chunk_text enc dec text cs ov = some cks ∧
      ∀ i (hi : i < cks.length), (cks.get ⟨i, hi⟩).start_index = i * (cs - ov).toNat) ∧
    (chunk_text String.data String.mk doc1100 512 50).map (fun l => l.map Chunk.start_index)
      = some [0, 462, 924] := by
  have hstep : (0 : Int) < cs - ov := by omega
  have hne : cs - ov ≠ 0 := by omega
  constructor
  · refine ⟨_, chunk_text_eq enc dec text cs ov hne, ?_⟩
    intro i hi
    rw [List.length_map] at hi
    rw [List.get_map]
    exact pyRange0_get _ _ hstep i hi
  · decide

/-- Witness for claim C8 on a 4-token text with `chunkSize = 3`, `overlap = 1`. -/
theorem claim_C8_witness :
    (∃ cks, chunk_text String.data String.mk "abcd" 3 1 = some cks ∧
      ∀ i (hi : i < cks.length), (cks.get ⟨i, hi⟩).start_index = i * ((3 : Int) - 1).toNat) ∧
    (chunk_text String.data String.mk doc1100 512 50).map (fun l => l.map Chunk.start_index)
      = some [0, 462, 924] :=
  claim_C8_chunk_start_index String.data String.mk "abcd" 3 1 (by decide) (by decide)

/-! ### Stream Protocol Engine — `stream_text` (protocol "data") -/

/-- Token usage captured from a provider frame
(`chunk.usage.prompt_tokens` etc.); only `prompt_tokens` is ever tested
against `None`, but all three fields come from the provider. -/
structure Usage where
  prompt_tokens : Option Int
  completion_tokens : Option Int
  total_tokens : Option Int
deriving DecidableEq, Repr

/-- One provider choice.  `content` models `choice.delta.content`, with
`none` covering both an absent delta object and a `None` content field
(all falsy in the source's `if choice.delta and choice.delta.content`). -/
structure Choice where
  content : Option String
  finish_reason : Option String
deriving DecidableEq, Repr

/-- One provider stream frame (`chunk`): its choices and optional usage. -/
structure Frame where
  choices : List Choice
  usage : Option Usage
deriving DecidableEq, Repr

/-- A retrieved source passed to `stream_text` (`sources` argument). -/
structure Source where
  id : String
  filename : String
  chunk_index : Int
  score : ℚ
  text : String
deriving DecidableEq, Repr

/-- The typed SSE events emitted by `stream_text` in "data" protocol mode.
`done` is the terminal sentinel line `data: [DONE]`. -/
inductive Event where
  | sourceDoc (s : Source)
  | textStart (id : String)
  | textDelta (id : String) (delta : String)
  | textEnd (id : String)
  | dataUsage (u : Usage)
  | finish
  | error (msg : String)
  | done
deriving DecidableEq, Repr

/-- The non-empty text payload of one choice, if any: `some s` exactly when
`choice.delta and choice.delta.content` is truthy in the source. -/
def choiceDelta (c : Choice) : Option String :=
  match c.content with
  | some s => if s = "" then none else some s
  | none => none

/-- Events produced by the inner `for choice in chunk.choices` loop:
on the first non-empty content a `text-start` is emitted, then every
non-empty content yields a `text-delta` with the same id.  Returns the
events together with the updated `text_started` flag. -/
def chooseEvents (tid : String) : Bool → List Choice → List Event × Bool
  | started, [] => ([], started)
  | started, c :: cs =>
    match choiceDelta c with
    | some s =>
      let rest := chooseEvents tid true cs
      ((if started then [] else [Event.textStart tid]) ++ Event.textDelta tid s :: rest.1,
       rest.2)
    | none => chooseEvents tid started cs

/-- Events and state produced by the `for chunk in stream` loop: usage data
is captured (last frame wins), frames with no choices are skipped, and each
frame's choices are processed in order. -/
def frameEvents (tid : String) : Bool → Option Usage → List Frame →
    List Event × Bool × Option Usage
  | started, usage, [] => ([], started, usage)
  | started, usage, f :: fs =>
    let usage' := match f.usage with | some u => some u | none => usage
    let ce := chooseEvents tid started f.choices
    let rest := frameEvents tid ce.2 usage' fs
    (ce.1 ++ rest.1, rest.2)

/-- All non-empty provider deltas, in arrival order. -/
def providerDeltas (frames : List Frame) : List String :=
  (frames.map (fun f => f.choices.filterMap choiceDelta)).join

/-- The usage event emitted before `finish`, guarded by
`if usage_data and usage_data.get("prompt_tokens") is not None`. -/
def usageEvents (u : Option Usage) : List Event :=
  match u with
  | some u => if u.prompt_tokens.isSome then [Event.dataUsage u] else []
  | none => []

/-- Embedding of `stream_text` with `protocol = "data"`.  The provider stream
is modelled as the list of frames successfully consumed; `fault = some msg`
means the provider raised an exception (message `msg`) when the next frame
was pulled, taking the `except` branch.  The `finally` block always appends
the terminal `data: [DONE]` sentinel. -/
def stream_text_data (tid : String) (sources : List Source) (frames : List Frame)
    (fault : Option String) : List Event :=
  let srcEvts := sources.map Event.sourceDoc
  let r := frameEvents tid false none frames
  let body :=
    match fault with
    | some msg => srcEvts ++ r.1 ++ [Event.error msg]
    | none =>
        srcEvts ++ r.1
          ++ (if r.2.1 then [Event.textEnd tid] else [])
          ++ usageEvents r.2.2
          ++ [Event.finish]
  body ++ [Event.done]

/-- Whether an event is a text-block event (`text-start`, `text-delta`,
`text-end`). -/
def isTextEvent : Event → Bool
  | Event.textStart _ => true
  | Event.textDelta _ _ => true
  | Event.textEnd _ => true
  | _ => false

theorem chooseEvents_true (tid : String) (cs : List Choice) :
    chooseEvents tid true cs
      = ((cs.filterMap choiceDelta).map (Event.textDelta tid), true) := by
  induction cs with
  | nil => rfl
  | cons c cs ih =>
    cases h : choiceDelta c with
    | some s => simp [chooseEvents, h, ih]
    | none => simp [chooseEvents, h, ih]

theorem chooseEvents_false (tid : String) (cs : List Choice) :
    chooseEvents tid false cs
      = match cs.filterMap choiceDelta with
        | [] => ([], false)
        | d :: ds =>
          (Event.textStart tid :: (d :: ds).map (Event.textDelta tid), true) := by
  induction cs with
  | nil => rfl
  | cons c cs ih =>
    cases h : choiceDelta c with
    | some s => simp [chooseEvents, h, chooseEvents_true]
    | none => simpa [chooseEvents, h] using ih

/-- The final captured usage value: the last frame carrying usage wins. -/
def finalUsage (u0 : Option Usage) (fs : List Frame) : Option Usage :=
  fs.foldl (fun acc f => match f.usage with | some u => some u | none => acc) u0

theorem frameEvents_true (tid : String) (u : Option Usage) (fs : List Frame) :
    frameEvents tid true u fs
      = ((providerDeltas fs).map (Event.textDelta tid), true, finalUsage u fs) := by
  induction fs generalizing u with
  | nil => rfl
  | cons f fs ih => simp [frameEvents, chooseEvents_true, ih, providerDeltas, finalUsage]

theorem frameEvents_false (tid : String) (u : Option Usage) (fs : List Frame) :
    frameEvents tid false u fs
      = (match providerDeltas fs with
         | [] => ([], false, finalUsage u fs)
         | d :: ds =>
           (Event.textStart tid :: (d :: ds).map (Event.textDelta tid), true,
            finalUsage u fs)) := by
  induction fs generalizing u with
  | nil => rfl
  | cons f fs ih =>
    cases h : f.choices.filterMap choiceDelta with
    | nil =>
      have hpd : providerDeltas (f :: fs) = providerDeltas fs := by
        simp [providerDeltas, h]
      cases hf : providerDeltas fs with
      | nil => simp [frameEvents, chooseEvents_false, h, ih, hpd, hf, finalUsage]
      | cons d ds => simp [frameEvents, chooseEvents_false, h, ih, hpd, hf, finalUsage]
    | cons d ds =>
      have hpd : providerDeltas (f :: fs) = (d :: ds) ++ providerDeltas fs := by
        simp [providerDeltas, h]
      simp [frameEvents, chooseEvents_false, h, frameEvents_true, hpd, finalUsage]

theorem usageEvents_not_text (u : Option Usage) :
    ∀ e ∈ usageEvents u, isTextEvent e = false := by
  intro e he
  cases u with
  | none => simp [usageEvents] at he
  | some v =>
    by_cases hp : v.prompt_tokens.isSome
    · simp [usageEvents, hp] at he
      subst he; rfl
    · simp [usageEvents, hp] at he

/-- Claim C1: for any provider frame sequence with at least one non-empty
content delta, the "data"-mode event stream is source-document events, then
exactly one `text-start`, then one `text-delta` per provider delta verbatim
and in arrival order (all with the same id), then exactly one `text-end`
with that id, and no other text event anywhere. -/
theorem claim_C1_single_text_block (tid : String) (srcs : List Source)
    (frames : List Frame) (h : providerDeltas frames ≠ []) :
    ∃ pre post,
      stream_text_data tid srcs frames none
        = pre ++ (Event.textStart tid :: (providerDeltas frames).map (Event.textDelta tid))
            ++ (Event.textEnd tid :: post) ∧
      (∀ e ∈ pre, isTextEvent e = false) ∧ (∀ e ∈ post, isTextEvent e = false) := by
  obtain ⟨d, ds, hd⟩ : ∃ d ds, providerDeltas frames = d :: ds := by
    cases hpd : providerDeltas frames with
    | nil => exact absurd hpd h
    | cons d ds => exact ⟨d, ds, rfl⟩
  refine ⟨srcs.map Event.sourceDoc,
    usageEvents (finalUsage none frames) ++ [Event.finish, Event.done], ?_, ?_, ?_⟩
  · simp [stream_text_data, frameEvents_false, hd]
  · intro e he
    simp only [List.mem_map] at he
    obtain ⟨s, -, rfl⟩ := he
    rfl
  · intro e he
    rcases List.mem_append.mp he with h1 | h2
    · exact usageEvents_not_text _ e h1
    · simp only [List.mem_cons, List.not_mem_nil, or_false] at h2
      rcases h2 with rfl | rfl <;> rfl

/-- Witness input for claim C1: one frame with a single non-empty delta. -/
def c1Frames : List Frame := [⟨[⟨some "hi", none⟩], none⟩]

/-- Witness for claim C1 at a concrete one-delta provider stream. -/
theorem claim_C1_witness :
    ∃ pre post,
      stream_text_data "t" [] c1Frames none
        = pre ++ (Event.textStart "t" :: (providerDeltas c1Frames).map (Event.textDelta "t"))
            ++ (Event.textEnd "t" :: post) ∧
      (∀ e ∈ pre, isTextEvent e = false) ∧ (∀ e ∈ post, isTextEvent e = false) :=
  claim_C1_single_text_block "t" [] c1Frames (by decide)

/-- Scenario D provider stream: three frames, each carrying one non-empty
delta, after which the provider raises a network fault. -/
def scenarioDFrames : List Frame :=
  [⟨[⟨some "d1", none⟩], none⟩, ⟨[⟨some "d2", none⟩], none⟩, ⟨[⟨some "d3", none⟩], none⟩]

/-- Claim C2: on every exit path of "data"-mode `stream_text` the terminal
`data: [DONE]` sentinel is the last event; and for a provider fault after 3
deltas the client receives `text-start`, 3 `text-delta`s, `error`, then the
sentinel — no `text-end` or `finish`. -/
theorem claim_C2_terminal_sentinel :
    (∀ (tid : String) (srcs : List Source) (frames : List Frame) (fault : Option String),
        (stream_text_data tid srcs frames fault).getLast? = some Event.done) ∧
    stream_text_data "t1" [] scenarioDFrames (some "network fault")
      = [Event.textStart "t1", Event.textDelta "t1" "d1", Event.textDelta "t1" "d2",
         Event.textDelta "t1" "d3", Event.error "network fault", Event.done] := by
  constructor
  · intro tid srcs frames fault
    unfold stream_text_data
    rw [List.getLast?_append_cons]
    rfl
  · decide

/-! ### Context Budgeter — `truncate_messages_to_fit` -/

/-- A conversation message (`{"role": ..., "content": ...}` dict with string
content, compared by value as Python dict equality does). -/
structure Msg where
  role : String
  content : String
deriving DecidableEq, Repr

/-- Embedding of `count_message_tokens` restricted to string contents:
4 tokens of role overhead per message, the tokenized content length, and a
flat 2-token reply priming added once. -/
def count_message_tokens {τ : Type} (enc : String → List τ) (msgs : List Msg) : Nat :=
  (msgs.foldl (fun acc m => acc + (4 + (enc m.content).length)) 0) + 2

/-- Token cost of a single message, `count_message_tokens([msg])`. -/
def cost {τ : Type} (enc : String → List τ) (m : Msg) : Nat :=
  count_message_tokens enc [m]

theorem cost_eq {τ : Type} (enc : String → List τ) (m : Msg) :
    cost enc m = (enc m.content).length + 6 := by
  simp [cost, count_message_tokens]
  omega

/-- The `system_msg` selected by the separation loop: the loop overwrites on
every system-role message, so the last one wins. -/
def sysFold (msgs : List Msg) : Option Msg :=
  msgs.foldl (fun acc m => if m.role = "system" then some m else acc) none

/-- The `conversation` list: all non-system messages in original order. -/
def conversationOf (msgs : List Msg) : List Msg :=
  msgs.filter (fun m => ¬ m.role = "system")

/-- The `last_user_msg` anchor: first user-role message of the reversed
conversation (`for msg in reversed(conversation): ... break`). -/
def lastUserOf (conv : List Msg) : Option Msg :=
  conv.reverse.find? (fun m => m.role == "user")

/-- The greedy budget walk over the reversed conversation: a message is kept
(inserted at the front of the running result) when its cost still fits the
remaining budget, which is then decremented. -/
def walkRev {τ : Type} (enc : String → List τ) : List Msg → Int → List Msg
  | [], _ => []
  | m :: rest, rem =>
    if (cost enc m : Int) ≤ rem then walkRev enc rest (rem - cost enc m) ++ [m]
    else walkRev enc rest rem

/-- The greedy branch: walk the reversed conversation, then force-append the
anchor if the walk did not pick it up (`last_user_msg not in result`). -/
def greedyWalk {τ : Type} (enc : String → List τ) (conversation : List Msg)
    (remaining : Int) : Option Msg → List Msg
  | some u =>
    if u ∈ walkRev enc conversation.reverse remaining then
      walkRev enc conversation.reverse remaining
    else walkRev enc conversation.reverse remaining ++ [u]
  | none => walkRev enc conversation.reverse remaining

/-- The `last_user_tokens` value: cost of the anchor, or 0 when there is no
user message (`count_message_tokens([last_user_msg]) if last_user_msg else 0`). -/
def luTok {τ : Type} (enc : String → List τ) (conv : List Msg) : Int :=
  match lastUserOf conv with
  | some u => (cost enc u : Int)
  | none => 0

/-- Embedding of `truncate_messages_to_fit`.  `max_tokens` and `reserved`
are Python ints, so the budget arithmetic is over `Int`. -/
def truncate_messages_to_fit {τ : Type} (enc : String → List τ)
    (dec : List τ → String) (messages : List Msg) (max_tokens reserved : Int) :
    List Msg :=
  let available := max_tokens - reserved
  let conversation := conversationOf messages
  let last_user_msg := lastUserOf conversation
  match sysFold messages with
  | none => greedyWalk enc conversation available last_user_msg
  | some s =>
    if (cost enc s : Int) > available - luTok enc conversation then
      let tokens := enc s.content
      let max_system_tokens := available - luTok enc conversation - 100
      (if max_system_tokens > 0 then
        [(⟨"system", dec (tokens.take max_system_tokens.toNat)⟩ : Msg)]
       else []) ++ last_user_msg.toList
    else
      s :: greedyWalk enc conversation (available - (cost enc s : Int)) last_user_msg

theorem find?_filter_of_imp {α : Type} (l : List α) (p q : α → Bool)
    (hpq : ∀ x, p x = true → q x = true) :
    (l.filter q).find? p = l.find? p := by
  induction l with
  | nil => rfl
  | cons x xs ih =>
    by_cases hq : q x = true
    · by_cases hp : p x = true
      · simp [List.filter_cons, hq, List.find?, hp]
      · simp only [List.filter_cons, hq, if_true]
        simp [List.find?, hp, ih]
    · have hp : ¬ p x = true := fun hc => hq (hpq x hc)
      simp only [List.filter_cons, hq, if_false]
      simp [List.find?, hp, ih]

theorem lastUserOf_conversation (msgs : List Msg) :
    lastUserOf (conversationOf msgs) = msgs.reverse.find? (fun m => m.role == "user") := by
  unfold lastUserOf conversationOf
  rw [← List.filter_reverse]
  exact find?_filter_of_imp _ _ _ (by
    intro x hx
    simp only [beq_iff_eq] at hx
    simp [hx])

theorem anchor_mem_greedyWalk {τ : Type} (enc : String → List τ)
    (conv : List Msg) (rem : Int) (u : Msg) :
    u ∈ greedyWalk enc conv rem (some u) := by
  unfold greedyWalk
  by_cases hm : u ∈ walkRev enc conv.reverse rem
  · simpa [hm]
  · simp [hm]

/-- Claim C3: whenever the input contains a user message, the output of
`truncate_messages_to_fit` contains the most recent user message of the
input, for every `max_tokens` and `reserved`. -/
theorem claim_C3_anchor_never_dropped {τ : Type} (enc : String → List τ)
    (dec : List τ → String) (messages : List Msg) (mt rsv : Int)
    (h : ∃ m ∈ messages, m.role = "user") :
    ∃ u, messages.reverse.find? (fun m => m.role == "user") = some u ∧
      u ∈ truncate_messages_to_fit enc dec messages mt rsv := by
  obtain ⟨m, hm, hrole⟩ := h
  have hex : ∃ x, x ∈ messages.reverse ∧ (fun m => m.role == "user") x = true :=
    ⟨m, by simpa using hm, by simp [hrole]⟩
  obtain ⟨u, hfind⟩ := Option.isSome_iff_exists.mp (List.find?_isSome.mpr hex)
  have hlu : lastUserOf (conversationOf messages) = some u := by
    rw [lastUserOf_conversation]; exact hfind
  refine ⟨u, hfind, ?_⟩
  unfold truncate_messages_to_fit
  cases hs : sysFold messages with
  | none =>
    simp only [hlu]
    exact anchor_mem_greedyWalk _ _ _ _
  | some s =>
    simp only [hlu]
    by_cases hcond : (cost enc s : Int) > mt - rsv - luTok enc (conversationOf messages)
    · simp only [hcond, if_true]
      simp [Option.toList]
    · simp only [hcond, if_false]
      exact List.mem_cons_of_mem _ (anchor_mem_greedyWalk _ _ _ _)

/-- Witness for claim C3 on a one-message conversation. -/
theorem claim_C3_witness :
    ∃ u, [(⟨"user", "hi"⟩ : Msg)].reverse.find? (fun m => m.role == "user") = some u ∧
      u ∈ truncate_messages_to_fit String.data String.mk [(⟨"user", "hi"⟩ : Msg)] 100 10 :=
  claim_C3_anchor_never_dropped String.data String.mk [(⟨"user", "hi"⟩ : Msg)] 100 10
    ⟨⟨"user", "hi"⟩, by decide, rfl⟩

/-- Scenario B system message: 5000 content tokens under the per-character
tokenizer. -/
def sysB : Msg := ⟨"system", String.mk (List.replicate 5000 'a')⟩

/-- Scenario B user message: 8 content tokens. -/
def userB : Msg := ⟨"user", "510k(?)q"⟩

theorem sysB_length : (String.data sysB.content).length = 5000 := by
  show (List.replicate 5000 'a').length = 5000
  exact List.length_replicate 5000 'a'

theorem scenarioB_truncate_eq :
    truncate_messages_to_fit String.data String.mk [sysB, userB] 8192 1000
      = [sysB, userB] := by
  have hcs : cost String.data sysB = 5006 := by rw [cost_eq, sysB_length]
  have hcu : cost String.data userB = 14 := by rw [cost_eq]; rfl
  have hsys : sysFold [sysB, userB] = some sysB := by
    show (if userB.role = "system" then some userB
          else if sysB.role = "system" then some sysB else none) = some sysB
    rw [if_neg (by decide : ¬ userB.role = "system"), if_pos (by decide : sysB.role = "system")]
  have hconv : conversationOf [sysB, userB] = [userB] := by
    unfold conversationOf
    rw [List.filter_cons_of_neg (by decide), List.filter_cons_of_pos (by decide),
      List.filter_nil]
  have hlu : lastUserOf [userB] = some userB := by
    show List.find? _ [userB] = some userB
    rw [List.find?_cons_of_pos _ (by decide)]
  have hlt : luTok String.data [userB] = 14 := by
    simp only [luTok, hlu, hcu]
    norm_num
  simp only [truncate_messages_to_fit, hconv, hlu, hsys, hcs, hcu, hlt]
  norm_num [greedyWalk, walkRev, hcu]

/-- Claim C4 (counterexample): in scenario B (`system` of 5000 content
tokens, `user` of 8, `modelLimit = 8192`, `reserved = 1000`) the system
message costs 5006 which fits `available - anchorCost = 7192 - 14`, so the
truncation branch is not taken: the head of the output is the system message
with its full 5000-token content, not a truncated copy. -/
theorem claim_C4_counterexample :
    (String.data sysB.content).length = 5000 ∧
    (truncate_messages_to_fit String.data String.mk [sysB, userB] 8192 1000).head?
      = some sysB := by
  refine ⟨sysB_length, ?_⟩
  rw [scenarioB_truncate_eq]
  rfl

/-- Claim C4 (amended): in scenario B no truncation occurs — the system
message already fits the budget and the output is exactly
`[system, user]` with both messages unmodified. -/
theorem claim_C4_scenario_b_output :
    truncate_messages_to_fit String.data String.mk [sysB, userB] 8192 1000
      = [sysB, userB] :=
  scenarioB_truncate_eq

theorem foldl_sys (l : List Msg) (acc : Option Msg) :
    l.foldl (fun acc m => if m.role = "system" then some m else acc) acc
      = match (l.filter (fun m => m.role == "system")).reverse with
        | [] => acc
        | x :: _ => some x := by
  induction l generalizing acc with
  | nil => rfl
  | cons m rest ih =>
    by_cases hm : m.role = "system"
    · rw [List.foldl_cons, if_pos hm, ih, List.filter_cons_of_pos (by simpa using hm)]
      cases hrev : (rest.filter (fun m => m.role == "system")).reverse with
      | nil => simp [hrev]
      | cons x xs => simp [hrev]
    · rw [List.foldl_cons, if_neg hm, ih, List.filter_cons_of_neg (by simpa using hm)]

theorem sysFold_eq_getLast (msgs : List Msg) :
    sysFold msgs = (msgs.filter (fun m => m.role == "system")).getLast? := by
  rw [sysFold, foldl_sys, ← List.head?_reverse]
  cases (msgs.filter (fun m => m.role == "system")).reverse <;> rfl

theorem sysFold_none (l : List Msg) (h : ∀ m ∈ l, ¬ m.role = "system") :
    sysFold l = none := by
  rw [sysFold_eq_getLast, List.filter_eq_nil_iff.mpr (by simpa using h)]
  rfl

theorem sysFold_cons_sys (s : Msg) (R : List Msg) (hs : s.role = "system")
    (hR : ∀ m ∈ R, ¬ m.role = "system") :
    sysFold (s :: R) = some s := by
  rw [sysFold_eq_getLast, List.filter_cons_of_pos (by simpa using hs),
    List.filter_eq_nil_iff.mpr (by simpa using hR)]
  rfl

theorem sysFold_role (msgs : List Msg) (s : Msg) (h : sysFold msgs = some s) :
    s.role = "system" := by
  rw [sysFold_eq_getLast] at h
  have h1 : s ∈ (msgs.filter (fun m => m.role == "system")).getLast? :=
    Option.mem_def.mpr h
  obtain ⟨hne, heq⟩ := List.mem_getLast?_eq_getLast h1
  have hmem : s ∈ msgs.filter (fun m => m.role == "system") := by
    rw [heq]; exact List.getLast_mem hne
  have := List.mem_filter.mp hmem
  simpa using this.2

theorem conversationOf_eq_self (l : List Msg) (h : ∀ m ∈ l, ¬ m.role = "system") :
    conversationOf l = l := by
  unfold conversationOf
  rw [List.filter_eq_self.mpr (by simpa using h)]

theorem conversationOf_cons_sys (s : Msg) (R : List Msg) (hs : s.role = "system")
    (hR : ∀ m ∈ R, ¬ m.role = "system") :
    conversationOf (s :: R) = R := by
  unfold conversationOf
  rw [List.filter_cons_of_neg (by simpa using hs),
    List.filter_eq_self.mpr (by simpa using hR)]

theorem lastUserOf_some (conv : List Msg) (u : Msg) (h : lastUserOf conv = some u) :
    u ∈ conv ∧ u.role = "user" := by
  unfold lastUserOf at h
  refine ⟨?_, ?_⟩
  · have := List.mem_of_find?_eq_some h
    simpa using this
  · have := List.find?_some h
    simpa using this

theorem walkRev_mem {τ : Type} (enc : String → List τ) (l : List Msg) (rem : Int)
    (x : Msg) (hx : x ∈ walkRev enc l rem) : x ∈ l := by
  induction l generalizing rem with
  | nil => simpa [walkRev] using hx
  | cons m rest ih =>
    rw [walkRev] at hx
    by_cases hc : (cost enc m : Int) ≤ rem
    · rw [if_pos hc] at hx
      rcases List.mem_append.mp hx with h1 | h2
      · exact List.mem_cons_of_mem _ (ih _ h1)
      · simp only [List.mem_singleton] at h2
        subst h2; exact List.mem_cons_self _ _
    · rw [if_neg hc] at hx
      exact List.mem_cons_of_mem _ (ih _ hx)

theorem walkRev_idem {τ : Type} (enc : String → List τ) (l : List Msg) (rem : Int) :
    walkRev enc (walkRev enc l rem).reverse rem = walkRev enc l rem := by
  induction l generalizing rem with
  | nil => rfl
  | cons m rest ih =>
    rw [walkRev]
    by_cases hc : (cost enc m : Int) ≤ rem
    · rw [if_pos hc, List.reverse_append, List.reverse_singleton, List.singleton_append,
        walkRev, if_pos hc, ih]
    · rw [if_neg hc, ih]

theorem greedyWalk_mem {τ : Type} (enc : String → List τ) (conv : List Msg)
    (rem : Int) (lu : Option Msg) (x : Msg) (hx : x ∈ greedyWalk enc conv rem lu) :
    x ∈ conv ∨ lu = some x := by
  cases lu with
  | none =>
    left
    simp only [greedyWalk] at hx
    exact (List.mem_reverse).mp (walkRev_mem enc _ _ x hx)
  | some u =>
    simp only [greedyWalk] at hx
    by_cases hm : u ∈ walkRev enc conv.reverse rem
    · rw [if_pos hm] at hx
      left; exact (List.mem_reverse).mp (walkRev_mem enc _ _ x hx)
    · rw [if_neg hm] at hx
      rcases List.mem_append.mp hx with h1 | h2
      · left; exact (List.mem_reverse).mp (walkRev_mem enc _ _ x h1)
      · simp only [List.mem_singleton] at h2
        subst h2; right; rfl

/-- The list kept by the greedy budget walk (before the anchor fallback),
as computed by the first application of `truncate_messages_to_fit`. -/
def keptOf {τ : Type} (enc : String → List τ) (messages : List Msg)
    (mt rsv : Int) : List Msg :=
  walkRev enc (conversationOf messages).reverse
    (mt - rsv - (match sysFold messages with
                 | some s => (cost enc s : Int)
                 | none => 0))

theorem truncate_eq_none {τ : Type} (enc : String → List τ) (dec : List τ → String)
    (messages : List Msg) (mt rsv : Int) (h : sysFold messages = none) :
    truncate_messages_to_fit enc dec messages mt rsv
      = greedyWalk enc (conversationOf messages) (mt - rsv)
          (lastUserOf (conversationOf messages)) := by
  simp only [truncate_messages_to_fit, h]

theorem truncate_eq_branch1 {τ : Type} (enc : String → List τ) (dec : List τ → String)
    (messages : List Msg) (mt rsv : Int) (s : Msg) (h : sysFold messages = some s)
    (hc : (cost enc s : Int) > mt - rsv - luTok enc (conversationOf messages)) :
    truncate_messages_to_fit enc dec messages mt rsv
      = (if mt - rsv - luTok enc (conversationOf messages) - 100 > 0 then
           [(⟨"system",
              dec ((enc s.content).take
                (mt - rsv - luTok enc (conversationOf messages) - 100).toNat)⟩ : Msg)]
         else []) ++ (lastUserOf (conversationOf messages)).toList := by
  simp only [truncate_messages_to_fit, h, if_pos hc]

theorem truncate_eq_greedy {τ : Type} (enc : String → List τ) (dec : List τ → String)
    (messages : List Msg) (mt rsv : Int) (s : Msg) (h : sysFold messages = some s)
    (hc : ¬ (cost enc s : Int) > mt - rsv - luTok enc (conversationOf messages)) :
    truncate_messages_to_fit enc dec messages mt rsv
      = s :: greedyWalk enc (conversationOf messages) (mt - rsv - (cost enc s : Int))
          (lastUserOf (conversationOf messages)) := by
  simp only [truncate_messages_to_fit, h, if_neg hc]

theorem conv_mem_not_system (msgs : List Msg) (m : Msg)
    (hm : m ∈ conversationOf msgs) : ¬ m.role = "system" := by
  have := List.mem_filter.mp hm
  simpa using this.2

/-- Claim C10: when the input holds several system messages, only the last
one survives: the output has at most one system-role message, any system
message in the output is its head and is the input's last system message,
possibly with token-truncated content. -/
theorem claim_C10_single_system {τ : Type} (enc : String → List τ)
    (dec : List τ → String) (messages : List Msg) (mt rsv : Int)
    (h : 2 ≤ (messages.filter (fun m => m.role == "system")).length) :
    ∃ s, sysFold messages = some s ∧
      (messages.filter (fun m => m.role == "system")).getLast? = some s ∧
      ((truncate_messages_to_fit enc dec messages mt rsv).filter
          (fun m => m.role == "system")).length ≤ 1 ∧
      ∀ m ∈ truncate_messages_to_fit enc dec messages mt rsv, m.role = "system" →
        (truncate_messages_to_fit enc dec messages mt rsv).head? = some m ∧
        (m = s ∨ ∃ k, m.content = dec ((enc s.content).take k)) := by
  have hne : messages.filter (fun m => m.role == "system") ≠ [] := by
    intro hnil
    rw [hnil] at h
    simp at h
  obtain ⟨s, hs⟩ : ∃ s, (messages.filter (fun m => m.role == "system")).getLast? = some s :=
    ⟨_, List.getLast?_eq_getLast_of_ne_nil hne⟩
  have hsys : sysFold messages = some s := by rw [sysFold_eq_getLast, hs]
  have hrole_s : s.role = "system" := sysFold_role _ _ hsys
  refine ⟨s, hsys, hs, ?_⟩
  by_cases hc : (cost enc s : Int) > mt - rsv - luTok enc (conversationOf messages)
  · rw [truncate_eq_branch1 enc dec messages mt rsv s hsys hc]
    by_cases hpos : mt - rsv - luTok enc (conversationOf messages) - 100 > 0
    · rw [if_pos hpos]
      cases hluv : lastUserOf (conversationOf messages) with
      | none =>
        simp only [Option.toList, List.append_nil]
        constructor
        · rw [List.filter_cons_of_pos (by simp), List.filter_nil]
          simp
        · intro m hm _
          simp only [List.mem_singleton] at hm
          subst hm
          exact ⟨rfl, Or.inr ⟨_, rfl⟩⟩
      | some u =>
        have hu : u.role = "user" := (lastUserOf_some _ _ hluv).2
        simp only [Option.toList]
        constructor
        · rw [List.singleton_append, List.filter_cons_of_pos (by simp),
            List.filter_cons_of_neg (by simp [hu]), List.filter_nil]
          simp
        · intro m hm hmrole
          rcases List.mem_append.mp hm with h1 | h2
          · simp only [List.mem_singleton] at h1
            subst h1
            exact ⟨rfl, Or.inr ⟨_, rfl⟩⟩
          · simp only [List.mem_singleton] at h2
            subst h2
            rw [hu] at hmrole
            exact absurd hmrole (by decide)
    · rw [if_neg hpos, List.nil_append]
      cases hluv : lastUserOf (conversationOf messages) with
      | none =>
        simp only [Option.toList]
        exact ⟨by simp, by intro m hm; simp at hm⟩
      | some u =>
        have hu : u.role = "user" := (lastUserOf_some _ _ hluv).2
        simp only [Option.toList]
        constructor
        · rw [List.filter_cons_of_neg (by simp [hu]), List.filter_nil]
          simp
        · intro m hm hmrole
          simp only [List.mem_singleton] at hm
          subst hm
          rw [hu] at hmrole
          exact absurd hmrole (by decide)
  · rw [truncate_eq_greedy enc dec messages mt rsv s hsys hc]
    have hG : ∀ m ∈ greedyWalk enc (conversationOf messages)
        (mt - rsv - (cost enc s : Int)) (lastUserOf (conversationOf messages)),
        ¬ m.role = "system" := by
      intro m hm
      rcases greedyWalk_mem enc _ _ _ m hm with h1 | h2
      · exact conv_mem_not_system _ _ h1
      · have hu : m.role = "user" := (lastUserOf_some _ _ h2).2
        rw [hu]; decide
    constructor
    · rw [List.filter_cons_of_pos (by simp [hrole_s]),
        List.filter_eq_nil_iff.mpr (by simpa using hG)]
      simp
    · intro m hm hmrole
      rcases List.mem_cons.mp hm with h1 | h2
      · subst h1
        exact ⟨rfl, Or.inl rfl⟩
      · exact absurd hmrole (hG m h2)

/-- Witness input for claim C10: two system messages and one user message. -/
def msgs10 : List Msg := [⟨"system", "s1"⟩, ⟨"system", "s2"⟩, ⟨"user", "q"⟩]

/-- Witness for claim C10 on a conversation with two system messages. -/
theorem claim_C10_witness :
    ∃ s, sysFold msgs10 = some s ∧
      (msgs10.filter (fun m => m.role == "system")).getLast? = some s ∧
      ((truncate_messages_to_fit String.data String.mk msgs10 1000 100).filter
          (fun m => m.role == "system")).length ≤ 1 ∧
      ∀ m ∈ truncate_messages_to_fit String.data String.mk msgs10 1000 100,
        m.role = "system" →
        (truncate_messages_to_fit String.data String.mk msgs10 1000 100).head? = some m ∧
        (m = s ∨ ∃ k, m.content = String.mk ((String.data s.content).take k)) :=
  claim_C10_single_system String.data String.mk msgs10 1000 100 (by decide)

theorem greedyWalk_eq_of_lastUser {τ : Type} (enc : String → List τ)
    (conv : List Msg) (rem : Int)
    (h : lastUserOf (walkRev enc conv.reverse rem) = lastUserOf conv) :
    greedyWalk enc conv rem (lastUserOf conv) = walkRev enc conv.reverse rem := by
  cases hlu : lastUserOf conv with
  | none => simp [greedyWalk]
  | some u =>
    have hmem : u ∈ walkRev enc conv.reverse rem := by
      have h2 : lastUserOf (walkRev enc conv.reverse rem) = some u := by rw [h, hlu]
      exact (lastUserOf_some _ _ h2).1
    simp [greedyWalk, hmem]

theorem greedyWalk_singleton_user {τ : Type} (enc : String → List τ)
    (rem : Int) (u : Msg) : greedyWalk enc [u] rem (some u) = [u] := by
  by_cases hc : (cost enc u : Int) ≤ rem
  · simp [greedyWalk, walkRev, hc]
  · simp [greedyWalk, walkRev, hc]

/-- Counterexample input for claim C5: assistant (cost 10), user (cost 11),
assistant (cost 10) with an available budget of 20. -/
def msgsC5 : List Msg := [⟨"assistant", "aaaa"⟩, ⟨"user", "hello"⟩, ⟨"assistant", "bbbb"⟩]

/-- Claim C5 (counterexample): `truncate_messages_to_fit` is not idempotent.
With budget 20 the greedy walk keeps the two assistant messages and the
anchor is force-appended, giving `[a1, a3, u]` of total cost 31; on the
second application the anchor now fits first, so both assistant messages are
dropped and the output shrinks to `[u]`. -/
theorem claim_C5_counterexample :
    truncate_messages_to_fit String.data String.mk
        (truncate_messages_to_fit String.data String.mk msgsC5 1020 1000) 1020 1000
      ≠ truncate_messages_to_fit String.data String.mk msgsC5 1020 1000 := by
  decide

/-- Claim C5 (amended): `truncate_messages_to_fit` is idempotent provided
that decoding then re-encoding is the identity on token lists and that the
greedy walk's kept list has the same most recent user message as the full
conversation (i.e. the anchor was picked up by the walk; the counterexample
shows idempotence fails when the anchor has to be force-appended). -/
theorem claim_C5_idempotent_conditional {τ : Type} (enc : String → List τ)
    (dec : List τ → String) (messages : List Msg) (mt rsv : Int)
    (hRT : ∀ ts : List τ, enc (dec ts) = ts)
    (hA : lastUserOf (keptOf enc messages mt rsv) = lastUserOf (conversationOf messages)) :
    truncate_messages_to_fit enc dec
        (truncate_messages_to_fit enc dec messages mt rsv) mt rsv
      = truncate_messages_to_fit enc dec messages mt rsv := by
  cases hsys : sysFold messages with
  | none =>
    have hkR : keptOf enc messages mt rsv
        = walkRev enc (conversationOf messages).reverse (mt - rsv) := by
      simp only [keptOf, hsys, sub_zero]
    have hA' : lastUserOf (walkRev enc (conversationOf messages).reverse (mt - rsv))
        = lastUserOf (conversationOf messages) := by rw [← hkR]; exact hA
    have hout : truncate_messages_to_fit enc dec messages mt rsv
        = walkRev enc (conversationOf messages).reverse (mt - rsv) :=
      (truncate_eq_none enc dec messages mt rsv hsys).trans
        (greedyWalk_eq_of_lastUser enc _ _ hA')
    rw [hout]
    have hRnon : ∀ m ∈ walkRev enc (conversationOf messages).reverse (mt - rsv),
        ¬ m.role = "system" := fun m hm =>
      conv_mem_not_system _ _ ((List.mem_reverse).mp (walkRev_mem enc _ _ m hm))
    rw [truncate_eq_none enc dec _ mt rsv (sysFold_none _ hRnon),
      conversationOf_eq_self _ hRnon]
    have hidem := walkRev_idem enc (conversationOf messages).reverse (mt - rsv)
    have h2 : lastUserOf (walkRev enc
        (walkRev enc (conversationOf messages).reverse (mt - rsv)).reverse (mt - rsv))
        = lastUserOf (walkRev enc (conversationOf messages).reverse (mt - rsv)) := by
      rw [hidem]
    rw [greedyWalk_eq_of_lastUser enc _ _ h2, hidem]
  | some s =>
    have hrole_s : s.role = "system" := sysFold_role _ _ hsys
    by_cases hc : (cost enc s : Int) > mt - rsv - luTok enc (conversationOf messages)
    · rw [truncate_eq_branch1 enc dec messages mt rsv s hsys hc]
      by_cases hpos : mt - rsv - luTok enc (conversationOf messages) - 100 > 0
      · rw [if_pos hpos]
        have hlen : ((enc s.content).length : Int)
            > mt - rsv - luTok enc (conversationOf messages) - 6 := by
          have := hc
          rw [cost_eq] at this
          push_cast at this
          omega
        have hKint : (((mt - rsv - luTok enc (conversationOf messages) - 100).toNat : Nat) : Int)
            = mt - rsv - luTok enc (conversationOf messages) - 100 :=
          Int.toNat_of_nonneg (le_of_lt hpos)
        have hlenK : (mt - rsv - luTok enc (conversationOf messages) - 100).toNat
            ≤ (enc s.content).length := by omega
        have hcostT : cost enc
            (⟨"system", dec ((enc s.content).take
              (mt - rsv - luTok enc (conversationOf messages) - 100).toNat)⟩ : Msg)
            = (mt - rsv - luTok enc (conversationOf messages) - 100).toNat + 6 := by
          rw [cost_eq]
          show (enc (dec ((enc s.content).take _))).length + 6 = _
          rw [hRT, List.length_take, min_eq_left hlenK]
        cases hluv : lastUserOf (conversationOf messages) with
        | none =>
          have hLT : luTok enc (conversationOf messages) = 0 := by
            simp only [luTok, hluv]
          simp only [Option.toList, List.append_nil]
          have hsys2 : sysFold [(⟨"system", dec ((enc s.content).take
              (mt - rsv - luTok enc (conversationOf messages) - 100).toNat)⟩ : Msg)]
              = some _ := sysFold_cons_sys _ [] rfl (by simp)
          rw [truncate_eq_greedy enc dec _ mt rsv _ hsys2 ?hc2]
          case hc2 =>
            rw [conversationOf_cons_sys _ [] rfl (by simp)]
            rw [hcostT]
            show ¬ _ > mt - rsv - luTok enc ([] : List Msg)
            have hLT2 : luTok enc ([] : List Msg) = 0 := rfl
            rw [hLT2]
            omega
          rw [conversationOf_cons_sys _ [] rfl (by simp)]
          simp [greedyWalk, walkRev, lastUserOf]
        | some u =>
          have hu_role : u.role = "user" := (lastUserOf_some _ _ hluv).2
          have hu_ne : ¬ u.role = "system" := by rw [hu_role]; decide
          have hLT : luTok enc (conversationOf messages) = (cost enc u : Int) := by
            simp only [luTok, hluv]
          simp only [Option.toList, List.singleton_append]
          have hsys2 : sysFold ((⟨"system", dec ((enc s.content).take
              (mt - rsv - luTok enc (conversationOf messages) - 100).toNat)⟩ : Msg) :: [u])
              = some _ := sysFold_cons_sys _ [u] rfl (by simpa using hu_ne)
          have hconv2 : conversationOf ((⟨"system", dec ((enc s.content).take
              (mt - rsv - luTok enc (conversationOf messages) - 100).toNat)⟩ : Msg) :: [u])
              = [u] := conversationOf_cons_sys _ [u] rfl (by simpa using hu_ne)
          have hlu2 : lastUserOf [u] = some u := by
            show List.find? _ [u] = some u
            rw [List.find?_cons_of_pos _ (by simpa using hu_role)]
          have hluTok2 : luTok enc [u] = (cost enc u : Int) := by
            simp only [luTok, hlu2]
          rw [truncate_eq_greedy enc dec _ mt rsv _ hsys2 ?hc2]
          case hc2 =>
            rw [hconv2, hcostT, hluTok2]
            omega
          rw [hconv2, hlu2, hcostT]
          have hfits : (cost enc u : Int)
              ≤ mt - rsv - ((mt - rsv - luTok enc (conversationOf messages) - 100).toNat + 6 : Nat) := by
            push_cast
            omega
          rw [show greedyWalk enc [u]
              (mt - rsv - ((mt - rsv - luTok enc (conversationOf messages) - 100).toNat + 6 : Nat))
              (some u) = [u] from greedyWalk_singleton_user enc _ u]
      · rw [if_neg hpos, List.nil_append]
        cases hluv : lastUserOf (conversationOf messages) with
        | none => rfl
        | some u =>
          have hu_role : u.role = "user" := (lastUserOf_some _ _ hluv).2
          have hu_ne : ¬ u.role = "system" := by rw [hu_role]; decide
          simp only [Option.toList]
          have hsys2 : sysFold [u] = none := sysFold_none _ (by simpa using hu_ne)
          rw [truncate_eq_none enc dec [u] mt rsv hsys2,
            conversationOf_eq_self [u] (by simpa using hu_ne)]
          have hlu2 : lastUserOf [u] = some u := by
            show List.find? _ [u] = some u
            rw [List.find?_cons_of_pos _ (by simpa using hu_role)]
          rw [hlu2]
          exact greedyWalk_singleton_user enc _ u
    · have hkR : keptOf enc messages mt rsv
          = walkRev enc (conversationOf messages).reverse
              (mt - rsv - (cost enc s : Int)) := by
        simp only [keptOf, hsys]
      have hA' : lastUserOf (walkRev enc (conversationOf messages).reverse
          (mt - rsv - (cost enc s : Int)))
          = lastUserOf (conversationOf messages) := by rw [← hkR]; exact hA
      have hout : truncate_messages_to_fit enc dec messages mt rsv
          = s :: walkRev enc (conversationOf messages).reverse
              (mt - rsv - (cost enc s : Int)) := by
        rw [truncate_eq_greedy enc dec messages mt rsv s hsys hc,
          greedyWalk_eq_of_lastUser enc _ _ hA']
      rw [hout]
      have hRnon : ∀ m ∈ walkRev enc (conversationOf messages).reverse
          (mt - rsv - (cost enc s : Int)), ¬ m.role = "system" := fun m hm =>
        conv_mem_not_system _ _ ((List.mem_reverse).mp (walkRev_mem enc _ _ m hm))
      have hsys2 : sysFold (s :: walkRev enc (conversationOf messages).reverse
          (mt - rsv - (cost enc s : Int))) = some s :=
        sysFold_cons_sys _ _ hrole_s hRnon
      have hconv2 : conversationOf (s :: walkRev enc (conversationOf messages).reverse
          (mt - rsv - (cost enc s : Int)))
          = walkRev enc (conversationOf messages).reverse
              (mt - rsv - (cost enc s : Int)) :=
        conversationOf_cons_sys _ _ hrole_s hRnon
      have hluTok2 : luTok enc (walkRev enc (conversationOf messages).reverse
          (mt - rsv - (cost enc s : Int))) = luTok enc (conversationOf messages) := by
        unfold luTok
        rw [hA']
      rw [truncate_eq_greedy enc dec _ mt rsv s hsys2 ?hc2]
      case hc2 =>
        rw [hconv2, hluTok2]
        exact hc
      rw [hconv2]
      have hidem := walkRev_idem enc (conversationOf messages).reverse
        (mt - rsv - (cost enc s : Int))
      have h2 : lastUserOf (walkRev enc
          (walkRev enc (conversationOf messages).reverse
            (mt - rsv - (cost enc s : Int))).reverse (mt - rsv - (cost enc s : Int)))
          = lastUserOf (walkRev enc (conversationOf messages).reverse
              (mt - rsv - (cost enc s : Int))) := by
        rw [hidem]
      rw [greedyWalk_eq_of_lastUser enc _ _ h2, hidem]

/-- Witness for claim C5's amended theorem on a one-user conversation with
the identity character tokenizer. -/
theorem claim_C5_witness :
    truncate_messages_to_fit String.data String.mk
        (truncate_messages_to_fit String.data String.mk [(⟨"user", "hi"⟩ : Msg)] 100 10)
        100 10
      = truncate_messages_to_fit String.data String.mk [(⟨"user", "hi"⟩ : Msg)] 100 10 :=
  claim_C5_idempotent_conditional String.data String.mk [(⟨"user", "hi"⟩ : Msg)] 100 10
    (fun _ => rfl) (by decide)

/-! ### Retrieval Ranker — the RAG block of `handle_chat_data` in `main.py` -/

/-- A similarity-search hit as returned by the vector store, with the
metadata fields read by `handle_chat_data`. -/
structure Hit where
  id : String
  filename : String
  chunk_index : Int
  score : ℚ
  text : String
deriving DecidableEq, Repr

/-- A passage prepared for the client (`rag_sources` entry). -/
structure DisplaySource where
  id : String
  filename : String
  chunk_index : Int
  score : ℚ
  text : String
deriving DecidableEq, Repr

/-- Model of Python `round(score, 4)` over exact rationals. -/
def round4 (q : ℚ) : ℚ := round (q * 10000) / 10000

/-- Model of Python string slicing `s[:n]`: the first `n` characters. -/
def pyStrTake (s : String) (n : Nat) : String := String.mk (s.data.take n)

/-- Stable insertion preserving descending key order; a later element is
placed after every earlier element with an equal or larger key. -/
def insertDesc {α : Type} (key : α → ℚ) (x : α) : List α → List α
  | [] => [x]
  | y :: ys => if key y ≤ key x then x :: y :: ys else y :: insertDesc key x ys

/-- Model of Python `sorted(hits, key=score, reverse=True)`: a stable sort
by key, descending. -/
def sortByKeyDesc {α : Type} (key : α → ℚ) : List α → List α
  | [] => []
  | x :: xs => insertDesc key x (sortByKeyDesc key xs)

/-- One `rag_sources` entry: the hit's fields with the score rounded to 4
decimal places and text truncated to 500 characters for display. -/
def displayOf (h : Hit) : DisplaySource :=
  ⟨h.id, h.filename, h.chunk_index, round4 h.score, pyStrTake h.text 500⟩

/-- Embedding of the RAG ranking block of `handle_chat_data`: sort hits by
score descending (stably), and if any hits were found take the top 3 both as
display passages and as the context string joined by blank lines; otherwise
no passages and no injected context. -/
def rank (hits : List Hit) : List DisplaySource × Option String :=
  let sorted := sortByKeyDesc Hit.score hits
  if sorted = [] then ([], none)
  else ((sorted.take 3).map displayOf,
    some (String.intercalate "\n\n" ((sorted.take 3).map Hit.text)))

theorem insertDesc_perm {α : Type} (key : α → ℚ) (x : α) (l : List α) :
    (insertDesc key x l).Perm (x :: l) := by
  induction l with
  | nil => rfl
  | cons y ys ih =>
    rw [insertDesc]
    by_cases hk : key y ≤ key x
    · rw [if_pos hk]
    · rw [if_neg hk]
      exact ((ih.cons y).trans (List.Perm.swap x y ys)).symm.symm

theorem sortByKeyDesc_perm {α : Type} (key : α → ℚ) (l : List α) :
    (sortByKeyDesc key l).Perm l := by
  induction l with
  | nil => rfl
  | cons x xs ih =>
    exact (insertDesc_perm key x _).trans (ih.cons x)

theorem mem_insertDesc {α : Type} (key : α → ℚ) (x a : α) (l : List α) :
    a ∈ insertDesc key x l ↔ a = x ∨ a ∈ l := by
  rw [(insertDesc_perm key x l).mem_iff, List.mem_cons]

theorem insertDesc_sorted {α : Type} (key : α → ℚ) (x : α) (l : List α)
    (hl : l.Pairwise (fun a b => key b ≤ key a)) :
    (insertDesc key x l).Pairwise (fun a b => key b ≤ key a) := by
  induction l with
  | nil => simp [insertDesc]
  | cons y ys ih =>
    rw [List.pairwise_cons] at hl
    rw [insertDesc]
    by_cases hk : key y ≤ key x
    · rw [if_pos hk]
      refine List.Pairwise.cons ?_ (List.Pairwise.cons hl.1 hl.2)
      intro z hz
      rcases List.mem_cons.mp hz with rfl | hz2
      · exact hk
      · exact le_trans (hl.1 z hz2) hk
    · rw [if_neg hk]
      refine List.Pairwise.cons ?_ (ih hl.2)
      intro z hz
      rcases (mem_insertDesc key x z ys).mp hz with rfl | hz2
      · exact le_of_lt (lt_of_not_le hk)
      · exact hl.1 z hz2

theorem sortByKeyDesc_sorted {α : Type} (key : α → ℚ) (l : List α) :
    (sortByKeyDesc key l).Pairwise (fun a b => key b ≤ key a) := by
  induction l with
  | nil => simp [sortByKeyDesc]
  | cons x xs ih => exact insertDesc_sorted key x _ ih

/-- The stable descending order on indexed elements: strictly larger key
first, equal keys in index (arrival) order. -/
def LexGt {α : Type} (key : α → ℚ) (idx : α → Nat) (p q : α) : Prop :=
  key q < key p ∨ (key p = key q ∧ idx p < idx q)

theorem insertDesc_stable {α : Type} (key : α → ℚ) (idx : α → Nat) (x : α)
    (l : List α) (hl : l.Pairwise (LexGt key idx)) (hx : ∀ y ∈ l, idx x < idx y) :
    (insertDesc key x l).Pairwise (LexGt key idx) := by
  induction l with
  | nil => simp [insertDesc]
  | cons y ys ih =>
    rw [List.pairwise_cons] at hl
    rw [insertDesc]
    by_cases hk : key y ≤ key x
    · rw [if_pos hk]
      refine List.Pairwise.cons ?_ (List.Pairwise.cons hl.1 hl.2)
      intro z hz
      have hzley : key z ≤ key y := by
        rcases List.mem_cons.mp hz with rfl | hz2
        · exact le_refl _
        · rcases hl.1 z hz2 with h1 | h1
          · exact le_of_lt h1
          · exact le_of_eq h1.1.symm
      rcases lt_or_eq_of_le (le_trans hzley hk) with h1 | h1
      · exact Or.inl h1
      · exact Or.inr ⟨h1.symm, hx z hz⟩
    · rw [if_neg hk]
      refine List.Pairwise.cons ?_ (ih hl.2 (fun z hz => hx z (List.mem_cons_of_mem _ hz)))
      intro z hz
      rcases (mem_insertDesc key x z ys).mp hz with rfl | hz2
      · exact Or.inl (lt_of_not_le hk)
      · exact hl.1 z hz2

theorem sortByKeyDesc_stable {α : Type} (key : α → ℚ) (idx : α → Nat) (l : List α)
    (hl : l.Pairwise (fun a b => idx a < idx b)) :
    (sortByKeyDesc key l).Pairwise (LexGt key idx) := by
  induction l with
  | nil => simp [sortByKeyDesc]
  | cons x xs ih =>
    rw [List.pairwise_cons] at hl
    refine insertDesc_stable key idx x _ (ih hl.2) ?_
    intro y hy
    exact hl.1 y ((sortByKeyDesc_perm key xs).mem_iff.mp hy)

theorem round4_mono {x y : ℚ} (h : x ≤ y) : round4 x ≤ round4 y := by
  unfold round4
  have h2 : round (x * 10000) ≤ round (y * 10000) := by
    rw [round_eq, round_eq]
    exact Int.floor_mono (by linarith)
  have h3 : ((round (x * 10000) : ℤ) : ℚ) ≤ ((round (y * 10000) : ℤ) : ℚ) := by
    exact_mod_cast h2
  exact (div_le_div_right (by norm_num)).mpr h3

theorem enum_pairwise_fst {α : Type} (l : List α) :
    l.enum.Pairwise (fun p q => p.1 < q.1) := by
  have h := List.pairwise_lt_range l.length
  rw [← List.enum_map_fst l] at h
  exact List.pairwise_map.mp h

/-- Claim C9: for every hit sequence, the display passages are the stably
score-descending-sorted hits cut to the top 3 (also used for the injected
context), each carrying the 4-decimal-rounded score and at most 500
characters of text; an empty hit sequence yields no passages and no context;
and the sort is a stable permutation (equal scores keep arrival order). -/
theorem claim_C9_ranker (hits : List Hit) :
    (rank hits).1 = ((sortByKeyDesc Hit.score hits).take 3).map displayOf ∧
    (sortByKeyDesc Hit.score hits).Perm hits ∧
    ((sortByKeyDesc Hit.score hits).map Hit.score).Pairwise (· ≥ ·) ∧
    ((rank hits).1.map DisplaySource.score).Pairwise (· ≥ ·) ∧
    (rank hits).1.length ≤ 3 ∧
    (rank hits).1.all (fun p => decide (p.text.length ≤ 500)) = true ∧
    (rank hits).2 = (if hits = [] then none
      else some (String.intercalate "\n\n"
        (((sortByKeyDesc Hit.score hits).take 3).map Hit.text))) ∧
    rank ([] : List Hit) = ([], none) ∧
    (sortByKeyDesc (fun p => p.2.score) hits.enum).Pairwise
      (fun p q => q.2.score < p.2.score ∨ (p.2.score = q.2.score ∧ p.1 < q.1)) := by
  have hperm := sortByKeyDesc_perm Hit.score hits
  have hiff : sortByKeyDesc Hit.score hits = [] ↔ hits = [] := by
    constructor
    · intro h
      rw [h] at hperm
      exact hperm.symm.eq_nil
    · intro h
      subst h
      rfl
  have hfst : (rank hits).1 = ((sortByKeyDesc Hit.score hits).take 3).map displayOf := by
    by_cases hnil : sortByKeyDesc Hit.score hits = []
    · simp [rank, hnil]
    · simp [rank, hnil]
  have hsorted := sortByKeyDesc_sorted Hit.score hits
  have htake : ((sortByKeyDesc Hit.score hits).take 3).Pairwise
      (fun a b => Hit.score b ≤ Hit.score a) :=
    List.Pairwise.sublist (List.take_sublist 3 _) hsorted
  refine ⟨hfst, hperm, List.pairwise_map.mpr hsorted, ?_, ?_, ?_, ?_, by simp [rank, sortByKeyDesc], ?_⟩
  · rw [hfst, List.map_map]
    exact List.pairwise_map.mpr (htake.imp (fun h => round4_mono h))
  · rw [hfst, List.length_map, List.length_take]
    exact min_le_left _ _
  · rw [hfst, List.all_eq_true]
    intro p hp
    simp only [List.mem_map] at hp
    obtain ⟨h, -, rfl⟩ := hp
    simp only [displayOf, pyStrTake, decide_eq_true_eq]
    show (h.text.data.take 500).length ≤ 500
    rw [List.length_take]
    exact min_le_left _ _
  · by_cases hnil : hits = []
    · subst hnil
      simp [rank, sortByKeyDesc]
    · have hsnil : ¬ sortByKeyDesc Hit.score hits = [] := fun hc => hnil (hiff.mp hc)
      simp [rank, hsnil, hnil]
  · exact sortByKeyDesc_stable _ _ _ (enum_pairwise_fst hits)

end FdaSearch
